import Mathlib

/-!
Shallow embedding of the multi-parent hierarchy engine of the
`bevy_parents_childs` repository (src/child_builder.rs,
src/query_extension.rs, src/components/children.rs,
src/components/parents.rs).

Entities are natural numbers.  A `BTreeSet<Entity>` component is a
`Finset ℕ`; an absent component is `none`.  The ECS world is modelled as
the two component maps the engine touches plus the
`Events<HierarchyEvent>` log (the event resource is modelled as always
registered, so `push_events` always appends).  Every Rust relationship
operation is translated function-by-function below; file and line
references point into the repository sources.
-/

/-- HierarchyEvent from the crate root (referenced throughout
child_builder.rs). -/
inductive HierarchyEvent where
  | ChildAdded (child parent : ℕ)
  | ChildRemoved (child parent : ℕ)
  | ChildMoved (child previousParent newParent : ℕ)
deriving DecidableEq

/-- The ECS world restricted to the data the hierarchy engine touches:
the `Children` and `Parents` components of every entity (absent = `none`)
and the event log. -/
@[ext]
structure World where
  children : ℕ → Option (Finset ℕ)
  parents : ℕ → Option (Finset ℕ)
  events : List HierarchyEvent

/-- Store write: replace (or remove, with `none`) the `Children`
component of entity `e`. -/
def writeChildren (w : World) (e : ℕ) (v : Option (Finset ℕ)) : World :=
  { w with children := fun x => if x = e then v else w.children x }

/-- Store write: replace (or remove, with `none`) the `Parents`
component of entity `e`. -/
def writeParents (w : World) (e : ℕ) (v : Option (Finset ℕ)) : World :=
  { w with parents := fun x => if x = e then v else w.parents x }

/-- The ChildSet of an entity, reading an absent component as empty. -/
def childSetOf (w : World) (e : ℕ) : Finset ℕ := (w.children e).getD ∅

/-- The ParentSet of an entity, reading an absent component as empty. -/
def parentSetOf (w : World) (e : ℕ) : Finset ℕ := (w.parents e).getD ∅

/-- UnidirectionalExt::insert_children_unidirectional
(child_builder.rs lines 741-747): extend an existing `Children`
component with the given entities, or insert a fresh component built
from them if absent. -/
def insert_children_unidirectional (w : World) (cs : List ℕ) (parent : ℕ) : World :=
  match w.children parent with
  | some s => writeChildren w parent (some (s ∪ cs.toFinset))
  | none => writeChildren w parent (some cs.toFinset)

/-- UnidirectionalExt::remove_children_unidirectional
(child_builder.rs lines 749-758): remove each given entity from the
`Children` component, deleting the component when it ends up empty;
do nothing if the component is absent. -/
def remove_children_unidirectional (w : World) (cs : List ℕ) (parent : ℕ) : World :=
  match w.children parent with
  | some s =>
      let s2 := cs.foldl Finset.erase s
      writeChildren w parent (if s2 = ∅ then none else some s2)
  | none => w

/-- UnidirectionalExt::insert_parent_unidirectional
(child_builder.rs lines 760-766): insert `parent` into the `Parents`
component of `child`, creating the component if absent. -/
def insert_parent_unidirectional (w : World) (child parent : ℕ) : World :=
  match w.parents child with
  | some s => writeParents w child (some (insert parent s))
  | none => writeParents w child (some {parent})

/-- UnidirectionalExt::remove_parent_unidirectional
(child_builder.rs lines 768-775): remove `parent` from the `Parents`
component of `child`, deleting the component when it ends up empty;
do nothing if the component is absent. -/
def remove_parent_unidirectional (w : World) (child parent : ℕ) : World :=
  match w.parents child with
  | some s =>
      let s2 := s.erase parent
      writeParents w child (if s2 = ∅ then none else some s2)
  | none => w

/-- push_events (child_builder.rs lines 14-18), with the event resource
registered: append the events to the log. -/
def push_events (w : World) (evs : List HierarchyEvent) : World :=
  { w with events := w.events ++ evs }

/-- BuildWorldChildren::add_child for EntityMut (child_builder.rs lines
620-630): insert `child` into `parent`'s Children, insert `parent` into
`child`'s Parents, and unconditionally push one `ChildAdded` event. -/
def add_child (w : World) (parent child : ℕ) : World :=
  let w1 := insert_children_unidirectional w [child] parent
  let w2 := insert_parent_unidirectional w1 child parent
  push_events w2 [HierarchyEvent.ChildAdded child parent]

/-- BuildWorldChildren::push_children for EntityMut (child_builder.rs
lines 652-685): filter the input down to entities not already in the
existing `Children` component (no filtering when the component is
absent), build one `ChildAdded` event per remaining occurrence, insert
the filtered entities into `parent`'s Children, give each filtered
entity `parent` in its Parents, then push the events. -/
def push_children (w : World) (parent : ℕ) (cs : List ℕ) : World :=
  let filtered := match w.children parent with
    | some s => cs.filter (fun c => c ∉ s)
    | none => cs
  let evs := filtered.map (fun c => HierarchyEvent.ChildAdded c parent)
  let w1 := insert_children_unidirectional w filtered parent
  let w2 := filtered.foldl (fun acc c => insert_parent_unidirectional acc c parent) w1
  push_events w2 evs

/-- remove_children free function (child_builder.rs lines 107-126):
if `parent` has no `Children` component, return immediately; otherwise
collect one `ChildRemoved` event per input child contained in the
component (in input order), remove `parent` from the Parents of each
such child, push the events, and finally remove the input children from
`parent`'s Children component. -/
def remove_children (parent : ℕ) (cs : List ℕ) (w : World) : World :=
  match w.children parent with
  | none => w
  | some s =>
      let hits := cs.filter (fun c => c ∈ s)
      let evs := hits.map (fun c => HierarchyEvent.ChildRemoved c parent)
      let w1 := hits.foldl (fun acc c => remove_parent_unidirectional acc c parent) w
      let w2 := push_events w1 evs
      remove_children_unidirectional w2 cs parent

/-- BuildWorldChildren::remove_parent for EntityMut (child_builder.rs
lines 708-718): remove `parent` from `child`'s Parents, remove `child`
from `parent`'s Children, and unconditionally push one `ChildRemoved`
event. -/
def remove_parent (w : World) (child parent : ℕ) : World :=
  let w1 := remove_parent_unidirectional w child parent
  let w2 := remove_children_unidirectional w1 [child] parent
  push_events w2 [HierarchyEvent.ChildRemoved child parent]

/-- The handle-Parent block shared verbatim by move_child
(child_builder.rs lines 607-614) and move_children (lines 639-648): in
`child`'s Parents remove `parent` and insert `new_parent`, creating the
component as the singleton of `new_parent` when absent. -/
def move_parent_update (acc : World) (parent new_parent child : ℕ) : World :=
  match acc.parents child with
  | some s => writeParents acc child (some (insert new_parent (s.erase parent)))
  | none => writeParents acc child (some {new_parent})

/-- BuildWorldChildren::move_child for EntityMut (child_builder.rs lines
593-618): remove `child` from `parent`'s Children, insert it into
`new_parent`'s Children, and in `child`'s Parents remove `parent` and
insert `new_parent` (creating the component as `{new_parent}` if
absent).  No events are pushed. -/
def move_child (w : World) (parent new_parent child : ℕ) : World :=
  let w1 := remove_children_unidirectional w [child] parent
  let w2 := insert_children_unidirectional w1 [child] new_parent
  move_parent_update w2 parent new_parent child

/-- BuildWorldChildren::move_children for EntityMut (child_builder.rs
lines 632-651): batched form of `move_child`; no events are pushed. -/
def move_children (w : World) (parent new_parent : ℕ) (cs : List ℕ) : World :=
  let w1 := remove_children_unidirectional w cs parent
  let w2 := insert_children_unidirectional w1 cs new_parent
  cs.foldl (fun acc child => move_parent_update acc parent new_parent child) w2

/-- Repeatedly extract the minimum: ascending iteration order of a
`BTreeSet`, with enough fuel to drain the whole set. -/
def pickSorted : ℕ → Finset ℕ → List ℕ
  | 0, _ => []
  | n + 1, s => if h : s.Nonempty then s.min' h :: pickSorted n (s.erase (s.min' h)) else []

/-- The list a `BTreeSet<Entity>` iterates as: its members in ascending
order. -/
def sortedList (s : Finset ℕ) : List ℕ := pickSorted s.card s

/-- ClearChildren::apply (child_builder.rs lines 248-257): read the
current `Children` component as a sorted vector (empty when absent) and
delegate to `remove_children`. -/
def clear_children_apply (w : World) (parent : ℕ) : World :=
  let cs := sortedList ((w.children parent).getD ∅)
  remove_children parent cs w

/-- ReplaceChildren::apply (child_builder.rs lines 265-282): unwrap the
current `Children` component (`none` models the panic on an absent
component), compute both set differences against the replacement set,
detach the entities only in the old set with `remove_children` and
attach the entities only in the new set with `push_children`
(`BTreeSet` difference iterates in sorted order). -/
def replace_children_apply (w : World) (parent : ℕ) (cs : List ℕ) : Option World :=
  match w.children parent with
  | none => none
  | some s =>
      let replace := cs.toFinset
      let removeDiff := sortedList (s \ replace)
      let insertDiff := sortedList (replace \ s)
      some (push_children (remove_children parent removeDiff w) parent insertDiff)

/-- The take-and-collect loop at the start of clear_children_relation
(child_builder.rs lines 130-134): `take::<Children>()` each node's
`Children` component (removing it) and union the members. -/
def take_children_all : List ℕ → World → Finset ℕ × World
  | [], w => (∅, w)
  | n :: ns, w =>
      let s := (w.children n).getD ∅
      let w1 := writeChildren w n none
      let rest := take_children_all ns w1
      (s ∪ rest.1, rest.2)

/-- The take-and-collect loop at the start of clear_parents_relation
(child_builder.rs lines 150-154): `take::<Parents>()` each node's
`Parents` component (removing it) and union the members. -/
def take_parents_all : List ℕ → World → Finset ℕ × World
  | [], w => (∅, w)
  | n :: ns, w =>
      let s := (w.parents n).getD ∅
      let w1 := writeParents w n none
      let rest := take_parents_all ns w1
      (s ∪ rest.1, rest.2)

/-- clear_children_relation (child_builder.rs lines 129-147): take the
`Children` components of the nodes; for each collected child (in sorted
order), if it has a `Parents` component remove the nodes from it and
delete the component when it ends up empty. -/
def clear_children_relation (nodes : List ℕ) (w : World) : World :=
  let t := take_children_all nodes w
  (sortedList t.1).foldl (fun acc child =>
    match acc.parents child with
    | some s =>
        let s2 := nodes.foldl Finset.erase s
        writeParents acc child (if s2 = ∅ then none else some s2)
    | none => acc) t.2

/-- clear_parents_relation (child_builder.rs lines 149-167): take the
`Parents` components of the nodes; for each collected parent (in sorted
order), if it has a `Children` component remove the nodes from it (the
mutated, possibly empty, `Children` set stays on the entity) and, when
it ended up empty, remove that entity's `Parents` component — the code
really removes `Parents` here, not the emptied `Children`. -/
def clear_parents_relation (nodes : List ℕ) (w : World) : World :=
  let t := take_parents_all nodes w
  (sortedList t.1).foldl (fun acc parent =>
    match acc.children parent with
    | some s =>
        let s2 := nodes.foldl Finset.erase s
        let acc2 := writeChildren acc parent (some s2)
        if s2 = ∅ then writeParents acc2 parent none else acc2
    | none => acc) t.2

/-- EntityMut::despawn restricted to the hierarchy components: drop both
components of the entity. -/
def despawn (w : World) (node : ℕ) : World :=
  writeParents (writeChildren w node none) node none

/-- BuildWorldChildren::clear for EntityMut (child_builder.rs lines
720-727): unwind the node's child-side and parent-side relations, then
despawn it. -/
def clear (w : World) (node : ℕ) : World :=
  despawn (clear_parents_relation [node] (clear_children_relation [node] w)) node

/-- One DescendantIter::next step chain (query_extension.rs lines
115-133), run to exhaustion under a fuel bound: pop the smallest
frontier member, mark it visited, fold its children (filtered by the
visited set, which already contains the popped entity) into the
frontier, and yield it. -/
def descRun (cq : ℕ → Option (Finset ℕ)) : ℕ → Finset ℕ → Finset ℕ → List ℕ
  | 0, _, _ => []
  | fuel + 1, visited, nexts =>
      if h : nexts.Nonempty then
        let e := nexts.min' h
        let visited2 := insert e visited
        let nexts2 := (nexts.erase e) ∪ ((cq e).getD ∅).filter (fun x => x ∉ visited2)
        e :: descRun cq fuel visited2 nexts2
      else []

/-- DescendantIter::new (query_extension.rs lines 95-107) followed by
draining the iterator: start with an empty visited set and the root's
children (empty on a query miss) as the frontier. -/
def iter_descendants (w : World) (root : ℕ) (fuel : ℕ) : List ℕ :=
  descRun w.children fuel ∅ ((w.children root).getD ∅)

/-! ### Characterization lemmas for the primitives -/

/-- Effect of remove_parent_unidirectional on an optional ParentSet. -/
def erase_parent_opt (o : Option (Finset ℕ)) (p : ℕ) : Option (Finset ℕ) :=
  match o with
  | none => none
  | some s => if s.erase p = ∅ then none else some (s.erase p)

/-- Effect of remove_children_unidirectional on an optional ChildSet. -/
def remove_children_opt (o : Option (Finset ℕ)) (cs : List ℕ) : Option (Finset ℕ) :=
  match o with
  | none => none
  | some s =>
      if cs.foldl Finset.erase s = ∅ then none else some (cs.foldl Finset.erase s)

theorem foldl_erase_eq_filter (l : List ℕ) (s : Finset ℕ) :
    l.foldl Finset.erase s = s.filter (fun x => x ∉ l) := by
  induction l generalizing s with
  | nil => simp
  | cons a l ih =>
      simp only [List.foldl_cons, ih]
      ext x
      simp only [Finset.mem_filter, Finset.mem_erase, List.mem_cons]
      tauto

theorem erase_parent_opt_idem (o : Option (Finset ℕ)) (p : ℕ) :
    erase_parent_opt (erase_parent_opt o p) p = erase_parent_opt o p := by
  cases o with
  | none => rfl
  | some s =>
      simp only [erase_parent_opt]
      by_cases h : s.erase p = ∅
      · simp [h]
      · simp [h, Finset.erase_idem]

theorem rpu_parents (w : World) (c p x : ℕ) :
    (remove_parent_unidirectional w c p).parents x =
      if x = c then erase_parent_opt (w.parents c) p else w.parents x := by
  cases h : w.parents c with
  | none =>
      simp only [remove_parent_unidirectional, h, erase_parent_opt]
      split
      · next heq => rw [heq, h]
      · rfl
  | some s =>
      simp [remove_parent_unidirectional, h, erase_parent_opt, writeParents]

theorem rpu_children (w : World) (c p : ℕ) :
    (remove_parent_unidirectional w c p).children = w.children := by
  cases h : w.parents c <;> simp [remove_parent_unidirectional, h, writeParents]

theorem rpu_events (w : World) (c p : ℕ) :
    (remove_parent_unidirectional w c p).events = w.events := by
  cases h : w.parents c <;> simp [remove_parent_unidirectional, h, writeParents]

theorem ipu_parents (w : World) (c p x : ℕ) :
    (insert_parent_unidirectional w c p).parents x =
      if x = c then some (insert p (parentSetOf w c)) else w.parents x := by
  cases h : w.parents c <;>
    simp [insert_parent_unidirectional, h, writeParents, parentSetOf]

theorem ipu_children (w : World) (c p : ℕ) :
    (insert_parent_unidirectional w c p).children = w.children := by
  cases h : w.parents c <;> simp [insert_parent_unidirectional, h, writeParents]

theorem ipu_events (w : World) (c p : ℕ) :
    (insert_parent_unidirectional w c p).events = w.events := by
  cases h : w.parents c <;> simp [insert_parent_unidirectional, h, writeParents]

theorem icu_children (w : World) (cs : List ℕ) (parent x : ℕ) :
    (insert_children_unidirectional w cs parent).children x =
      if x = parent then some (childSetOf w parent ∪ cs.toFinset) else w.children x := by
  cases h : w.children parent <;>
    simp [insert_children_unidirectional, h, writeChildren, childSetOf]

theorem icu_parents (w : World) (cs : List ℕ) (parent : ℕ) :
    (insert_children_unidirectional w cs parent).parents = w.parents := by
  cases h : w.children parent <;> simp [insert_children_unidirectional, h, writeChildren]

theorem icu_events (w : World) (cs : List ℕ) (parent : ℕ) :
    (insert_children_unidirectional w cs parent).events = w.events := by
  cases h : w.children parent <;> simp [insert_children_unidirectional, h, writeChildren]

theorem rcu_children (w : World) (cs : List ℕ) (parent x : ℕ) :
    (remove_children_unidirectional w cs parent).children x =
      if x = parent then remove_children_opt (w.children parent) cs else w.children x := by
  cases h : w.children parent with
  | none =>
      simp only [remove_children_unidirectional, h, remove_children_opt]
      split
      · next heq => rw [heq, h]
      · rfl
  | some s =>
      simp [remove_children_unidirectional, h, remove_children_opt, writeChildren]

theorem rcu_parents (w : World) (cs : List ℕ) (parent : ℕ) :
    (remove_children_unidirectional w cs parent).parents = w.parents := by
  cases h : w.children parent <;> simp [remove_children_unidirectional, h, writeChildren]

theorem rcu_events (w : World) (cs : List ℕ) (parent : ℕ) :
    (remove_children_unidirectional w cs parent).events = w.events := by
  cases h : w.children parent <;> simp [remove_children_unidirectional, h, writeChildren]

/-! ### Fold characterizations -/

theorem foldl_rpu_parents (p : ℕ) (E : List ℕ) :
    ∀ (w : World) (x : ℕ),
      ((E.foldl (fun acc c => remove_parent_unidirectional acc c p) w).parents x) =
        if x ∈ E then erase_parent_opt (w.parents x) p else w.parents x := by
  induction E with
  | nil => intro w x; simp
  | cons a E ih =>
      intro w x
      simp only [List.foldl_cons, ih, rpu_parents]
      by_cases hxa : x = a
      · subst hxa
        by_cases hxE : x ∈ E <;>
          simp [hxE, erase_parent_opt_idem, List.mem_cons]
      · by_cases hxE : x ∈ E <;> simp [hxa, hxE, List.mem_cons]

theorem foldl_rpu_children (p : ℕ) (E : List ℕ) :
    ∀ (w : World),
      (E.foldl (fun acc c => remove_parent_unidirectional acc c p) w).children = w.children := by
  induction E with
  | nil => intro w; rfl
  | cons a E ih => intro w; simp [List.foldl_cons, ih, rpu_children]

theorem foldl_rpu_events (p : ℕ) (E : List ℕ) :
    ∀ (w : World),
      (E.foldl (fun acc c => remove_parent_unidirectional acc c p) w).events = w.events := by
  induction E with
  | nil => intro w; rfl
  | cons a E ih => intro w; simp [List.foldl_cons, ih, rpu_events]

theorem foldl_ipu_parents (p : ℕ) (E : List ℕ) :
    ∀ (w : World) (x : ℕ),
      ((E.foldl (fun acc c => insert_parent_unidirectional acc c p) w).parents x) =
        if x ∈ E then some (insert p (parentSetOf w x)) else w.parents x := by
  induction E with
  | nil => intro w x; simp
  | cons a E ih =>
      intro w x
      simp only [List.foldl_cons, ih, ipu_parents]
      by_cases hxa : x = a
      · subst hxa
        by_cases hxE : x ∈ E <;>
          simp [hxE, List.mem_cons, parentSetOf, ipu_parents, Finset.insert_idem]
      · by_cases hxE : x ∈ E <;>
          simp [hxa, hxE, List.mem_cons, parentSetOf, ipu_parents]

theorem foldl_ipu_children (p : ℕ) (E : List ℕ) :
    ∀ (w : World),
      (E.foldl (fun acc c => insert_parent_unidirectional acc c p) w).children = w.children := by
  induction E with
  | nil => intro w; rfl
  | cons a E ih => intro w; simp [List.foldl_cons, ih, ipu_children]

theorem foldl_ipu_events (p : ℕ) (E : List ℕ) :
    ∀ (w : World),
      (E.foldl (fun acc c => insert_parent_unidirectional acc c p) w).events = w.events := by
  induction E with
  | nil => intro w; rfl
  | cons a E ih => intro w; simp [List.foldl_cons, ih, ipu_events]

/-! ### Operation characterizations -/

theorem remove_children_events (parent : ℕ) (cs : List ℕ) (w : World) :
    (remove_children parent cs w).events =
      w.events ++ (cs.filter (fun c => c ∈ childSetOf w parent)).map
        (fun c => HierarchyEvent.ChildRemoved c parent) := by
  cases h : w.children parent with
  | none =>
      have hf : cs.filter (fun c => c ∈ childSetOf w parent) = [] := by
        apply List.filter_eq_nil_iff.mpr
        intro a _
        simp [childSetOf, h]
      simp [remove_children, h, hf]
  | some s =>
      simp [remove_children, h, rcu_events, push_events, foldl_rpu_events, childSetOf]

theorem remove_children_children (parent : ℕ) (cs : List ℕ) (w : World) (x : ℕ) :
    (remove_children parent cs w).children x =
      if x = parent then remove_children_opt (w.children parent) cs else w.children x := by
  cases h : w.children parent with
  | none =>
      simp only [remove_children, h, remove_children_opt]
      split
      · next heq => rw [heq, h]
      · rfl
  | some s =>
      simp only [remove_children, h, rcu_children, push_events, foldl_rpu_children]

theorem remove_children_parents (parent : ℕ) (cs : List ℕ) (w : World) (x : ℕ) :
    (remove_children parent cs w).parents x =
      if x ∈ cs ∧ x ∈ childSetOf w parent then erase_parent_opt (w.parents x) parent
      else w.parents x := by
  cases h : w.children parent with
  | none =>
      have : ¬(x ∈ cs ∧ x ∈ childSetOf w parent) := by
        simp [childSetOf, h]
      simp [remove_children, h, this]
  | some s =>
      simp only [remove_children, rcu_parents, push_events, h]
      rw [foldl_rpu_parents]
      have hm : x ∈ cs.filter (fun c => c ∈ s) ↔ x ∈ cs ∧ x ∈ childSetOf w parent := by
        simp [List.mem_filter, childSetOf, h]
      by_cases hx : x ∈ cs ∧ x ∈ childSetOf w parent
      · rw [if_pos (hm.mpr hx), if_pos hx]
      · rw [if_neg (fun hc => hx (hm.mp hc)), if_neg hx]

theorem push_children_events (w : World) (parent : ℕ) (cs : List ℕ) :
    (push_children w parent cs).events =
      w.events ++ (cs.filter (fun c => c ∉ childSetOf w parent)).map
        (fun c => HierarchyEvent.ChildAdded c parent) := by
  cases h : w.children parent with
  | none =>
      have hf : cs.filter (fun c => c ∉ childSetOf w parent) = cs := by
        apply List.filter_eq_self.mpr
        intro a _
        simp [childSetOf, h]
      simp only [push_children, h, push_events, foldl_ipu_events, icu_events, hf]
  | some s =>
      simp [push_children, h, push_events, foldl_ipu_events, icu_events, childSetOf]

theorem push_children_children (w : World) (parent : ℕ) (cs : List ℕ) (x : ℕ) :
    (push_children w parent cs).children x =
      if x = parent then some (childSetOf w parent ∪ cs.toFinset) else w.children x := by
  cases h : w.children parent with
  | none =>
      simp [push_children, h, push_events, foldl_ipu_children, icu_children, childSetOf]
  | some s =>
      simp only [push_children, push_events, foldl_ipu_children, icu_children, h]
      have hu : childSetOf w parent ∪ (cs.filter (fun c => c ∉ s)).toFinset =
          childSetOf w parent ∪ cs.toFinset := by
        ext a
        simp only [Finset.mem_union, List.mem_toFinset, List.mem_filter, childSetOf, h,
          Option.getD_some, decide_not, Bool.and_eq_true, decide_eq_true_eq,
          Bool.not_eq_true', decide_eq_false_iff_not]
        tauto
      rw [hu]

theorem push_children_parents (w : World) (parent : ℕ) (cs : List ℕ) (x : ℕ) :
    (push_children w parent cs).parents x =
      if x ∈ cs ∧ x ∉ childSetOf w parent then some (insert parent (parentSetOf w x))
      else w.parents x := by
  cases h : w.children parent with
  | none =>
      simp only [push_children, push_events, h]
      rw [foldl_ipu_parents]
      have hps : ∀ y, parentSetOf (insert_children_unidirectional w cs parent) y =
          parentSetOf w y := by
        intro y; simp [parentSetOf, icu_parents]
      have hcs : x ∈ cs ∧ x ∉ childSetOf w parent ↔ x ∈ cs := by
        simp [childSetOf, h]
      by_cases hx : x ∈ cs
      · rw [if_pos hx, if_pos (hcs.mpr hx), hps]
      · rw [if_neg hx, if_neg (fun hc => hx (hcs.mp hc)), icu_parents]
  | some s =>
      simp only [push_children, push_events, h]
      rw [foldl_ipu_parents]
      have hm : x ∈ cs.filter (fun c => c ∉ s) ↔ x ∈ cs ∧ x ∉ childSetOf w parent := by
        simp [List.mem_filter, childSetOf, h]
      have hps : ∀ y, parentSetOf (insert_children_unidirectional w (cs.filter (fun c => c ∉ s)) parent) y =
          parentSetOf w y := by
        intro y; simp [parentSetOf, icu_parents]
      by_cases hx : x ∈ cs ∧ x ∉ childSetOf w parent
      · rw [if_pos (hm.mpr hx), if_pos hx, hps]
      · rw [if_neg (fun hc => hx (hm.mp hc)), if_neg hx, icu_parents]

/-! ### Concrete worlds used by the claims -/

/-- World with the chain 0 → 1 → 2 fully symmetric: Children(0) = one,
Parents(1) = zero, Children(1) = two, Parents(2) = one. -/
def w_clear : World :=
  ⟨fun e => if e = 0 then some {1} else if e = 1 then some {2} else none,
   fun e => if e = 1 then some {0} else if e = 2 then some {1} else none, []⟩

/-- World with no hierarchy components and an empty event log. -/
def w_empty : World := ⟨fun _ => none, fun _ => none, []⟩

/-- Claim C1: the symmetry invariant must hold after every relationship
operation, including `clear`.  Running the code on the symmetric chain
0 → 1 → 2 and clearing node 2 leaves 1 in Children(0) while Parents(1)
is gone: `clear_parents_relation` (child_builder.rs line 163) removes
the `Parents` component of node 2's parent (entity 1) instead of that
entity's emptied `Children` component, contradicting its own doc comment
and the trait documentation. -/
theorem C1_clear_breaks_symmetry :
    1 ∈ childSetOf (clear w_clear 2) 0 ∧ 0 ∉ parentSetOf (clear w_clear 2) 1 := by
  decide

/-- Claim C2: no Children/Parents component may be present while empty
after an operation.  After the same `clear` of node 2, entity 1's
`Children` component is present and empty (the code writes the emptied
set back and deletes the wrong component, `Parents`). -/
theorem C2_clear_leaves_empty_children :
    (clear w_clear 2).children 1 = some ∅ ∧ (clear w_clear 2).parents 1 = none := by
  decide

/-- Claim C3 counterexample: applying add_child(1, 2) twice to an empty
world pushes two ChildAdded events, not one — add_child
(child_builder.rs lines 620-630) pushes unconditionally, so the claimed
"exactly one ChildAdded event in total" is false; only the set
membership is idempotent. -/
theorem C3_add_child_twice_two_events :
    (add_child (add_child w_empty 1 2) 1 2).events =
      [HierarchyEvent.ChildAdded 2 1, HierarchyEvent.ChildAdded 2 1] ∧
    (add_child (add_child w_empty 1 2) 1 2).events.count (HierarchyEvent.ChildAdded 2 1) ≠ 1 ∧
    (add_child (add_child w_empty 1 2) 1 2).children 1 = some {2} := by
  decide

theorem add_child_children (w : World) (p c x : ℕ) :
    (add_child w p c).children x =
      if x = p then some (insert c (childSetOf w p)) else w.children x := by
  simp only [add_child, push_events, ipu_children, icu_children]
  have hu : childSetOf w p ∪ ({c} : Finset ℕ) = insert c (childSetOf w p) := by
    ext a
    simp [or_comm]
  simp [hu]

theorem add_child_parents (w : World) (p c x : ℕ) :
    (add_child w p c).parents x =
      if x = c then some (insert p (parentSetOf w c)) else w.parents x := by
  simp only [add_child, push_events, ipu_parents, parentSetOf, icu_parents]

theorem add_child_events (w : World) (p c : ℕ) :
    (add_child w p c).events = w.events ++ [HierarchyEvent.ChildAdded c p] := by
  simp only [add_child, push_events, ipu_events, icu_events]

/-- Claim C3 as amended: performing add_child(p, c) twice yields a
ChildSet containing c exactly once (the second application changes no
Children or Parents component), but each application emits a ChildAdded
event, so two events are pushed in total — the second application is a
membership no-op yet is not silent. -/
theorem C3_amended_add_child_twice (w : World) (p c : ℕ) :
    (add_child (add_child w p c) p c).children = (add_child w p c).children ∧
    (add_child (add_child w p c) p c).parents = (add_child w p c).parents ∧
    c ∈ childSetOf (add_child w p c) p ∧
    (add_child (add_child w p c) p c).events =
      w.events ++ [HierarchyEvent.ChildAdded c p, HierarchyEvent.ChildAdded c p] := by
  refine ⟨?_, ?_, ?_, ?_⟩
  · funext x
    rw [add_child_children, add_child_children]
    by_cases hx : x = p
    · subst hx
      rw [if_pos rfl, if_pos rfl]
      simp [childSetOf, add_child_children, Finset.insert_idem]
    · rw [if_neg hx, if_neg hx]
  · funext x
    rw [add_child_parents, add_child_parents]
    by_cases hx : x = c
    · subst hx
      rw [if_pos rfl, if_pos rfl]
      simp [parentSetOf, add_child_parents, Finset.insert_idem]
    · rw [if_neg hx, if_neg hx]
  · simp [childSetOf, add_child_children]
  · rw [add_child_events, add_child_events, List.append_assoc]
    rfl

/-- Claim C4 counterexample: on a world with no relationship between 1
and 2, remove_parent(child 2, parent 1) still pushes a ChildRemoved
event — remove_parent (child_builder.rs lines 708-718) pushes
unconditionally, so "detach of a missing relationship emits no
notification" is false for the Detach path. -/
theorem C4_remove_parent_emits_on_missing :
    2 ∉ childSetOf w_empty 1 ∧ 1 ∉ parentSetOf w_empty 2 ∧
    (remove_parent w_empty 2 1).events = [HierarchyEvent.ChildRemoved 2 1] := by
  decide

/-- Claim C4 as amended: remove_children really is a silent no-op when
none of the given children is in the parent's ChildSet (state and event
log unchanged), but remove_parent only leaves the Children and Parents
components unchanged when no relationship exists — it still pushes a
ChildRemoved event unconditionally. -/
theorem C4_amended_detach_missing (w : World) (p c : ℕ) (l : List ℕ)
    (hl : ∀ x ∈ l, x ∉ childSetOf w p) (hpne : w.children p ≠ some ∅)
    (hc : c ∉ childSetOf w p) (hcp : p ∉ parentSetOf w c) (hcne : w.parents c ≠ some ∅) :
    remove_children p l w = w ∧
    (remove_parent w c p).children = w.children ∧
    (remove_parent w c p).parents = w.parents ∧
    (remove_parent w c p).events = w.events ++ [HierarchyEvent.ChildRemoved c p] := by
  have hrco : remove_children_opt (w.children p) [c] = w.children p := by
    cases hw : w.children p with
    | none => rfl
    | some s =>
        have hcs : c ∉ s := by simpa [childSetOf, hw] using hc
        have hse : s ≠ ∅ := fun h => hpne (by rw [hw, h])
        simp [remove_children_opt, Finset.erase_eq_of_not_mem hcs, hse]
  have hepo : erase_parent_opt (w.parents c) p = w.parents c := by
    cases hw : w.parents c with
    | none => rfl
    | some s =>
        have hps : p ∉ s := by simpa [parentSetOf, hw] using hcp
        have hse : s ≠ ∅ := fun h => hcne (by rw [hw, h])
        simp [erase_parent_opt, Finset.erase_eq_of_not_mem hps, hse]
  refine ⟨?_, ?_, ?_, ?_⟩
  · apply World.ext
    · funext x
      rw [remove_children_children]
      by_cases hx : x = p
      · subst hx
        rw [if_pos rfl]
        cases hw : w.children x with
        | none => rfl
        | some s =>
            have hfs : l.foldl Finset.erase s = s := by
              rw [foldl_erase_eq_filter]
              apply Finset.filter_eq_self.mpr
              intro y hy hyl
              exact hl y hyl (by simp [childSetOf, hw, hy])
            have hse : s ≠ ∅ := fun h => hpne (by rw [hw, h])
            simp [remove_children_opt, hfs, hse]
      · rw [if_neg hx]
    · funext x
      rw [remove_children_parents]
      rw [if_neg]
      rintro ⟨hxl, hxs⟩
      exact hl x hxl hxs
    · rw [remove_children_events]
      have hf : l.filter (fun c => c ∈ childSetOf w p) = [] := by
        apply List.filter_eq_nil_iff.mpr
        intro a ha
        simp [hl a ha]
      simp [hf]
  · funext x
    simp only [remove_parent, push_events, rcu_children, rpu_children]
    by_cases hx : x = p
    · subst hx
      rw [if_pos rfl, hrco]
    · rw [if_neg hx]
  · funext x
    simp only [remove_parent, push_events, rcu_parents, rpu_parents]
    by_cases hx : x = c
    · subst hx
      rw [if_pos rfl, hepo]
    · rw [if_neg hx]
  · simp only [remove_parent, push_events, rcu_events, rpu_events]

/-- World used as witness input for claim C4: 1 is parent of 3 only. -/
def w_c4 : World :=
  ⟨fun e => if e = 1 then some {3} else none,
   fun e => if e = 3 then some {1} else none, []⟩

/-- Witness for the amended claim C4 at a concrete world: 5 is not a
child of 1 and there is no 1-2 relationship. -/
theorem C4_amended_witness :
    ((∀ x ∈ ([5] : List ℕ), x ∉ childSetOf w_c4 1) ∧ w_c4.children 1 ≠ some ∅ ∧
      2 ∉ childSetOf w_c4 1 ∧ 1 ∉ parentSetOf w_c4 2 ∧ w_c4.parents 2 ≠ some ∅) ∧
    (remove_children 1 [5] w_c4 = w_c4 ∧
      (remove_parent w_c4 2 1).children = w_c4.children ∧
      (remove_parent w_c4 2 1).parents = w_c4.parents ∧
      (remove_parent w_c4 2 1).events = w_c4.events ++ [HierarchyEvent.ChildRemoved 2 1]) :=
  ⟨⟨by decide, by decide, by decide, by decide, by decide⟩,
   C4_amended_detach_missing w_c4 1 2 [5] (by decide) (by decide) (by decide) (by decide)
     (by decide)⟩

/-- Claim C5 counterexample: push_children with the duplicate input
list two-twice on a parent with no Children component attaches entity 2
once but pushes two ChildAdded events for it — push_children
(child_builder.rs lines 652-685) filters only against the existing
component, never against duplicates inside the input, so "exactly one
event per newly-attached child, no duplicate events" fails. -/
theorem C5_duplicate_input_duplicate_events :
    (push_children w_empty 1 [2, 2]).events =
      [HierarchyEvent.ChildAdded 2 1, HierarchyEvent.ChildAdded 2 1] ∧
    (push_children w_empty 1 [2, 2]).children 1 = some {2} := by
  decide

/-- Claim C5 as amended: push_children attaches only the children not
already present and emits one ChildAdded per occurrence of such a child
in the input; when the input list has no duplicates this is exactly one
event per newly-attached child, the parent's ChildSet becomes the union
with the input, every newly-attached child gains the parent in its
ParentSet, and children already present are left untouched.  Duplicate
occurrences in the input each emit their own event. -/
theorem C5_amended_push_children_filters (w : World) (p : ℕ) (l : List ℕ) (hnd : l.Nodup) :
    (push_children w p l).events =
      w.events ++ (l.filter (fun c => c ∉ childSetOf w p)).map
        (fun c => HierarchyEvent.ChildAdded c p) ∧
    ((l.filter (fun c => c ∉ childSetOf w p)).map
        (fun c => HierarchyEvent.ChildAdded c p)).Nodup ∧
    (push_children w p l).children p = some (childSetOf w p ∪ l.toFinset) ∧
    (∀ c ∈ l, c ∉ childSetOf w p →
      (push_children w p l).parents c = some (insert p (parentSetOf w c))) ∧
    (∀ c, c ∈ childSetOf w p → (push_children w p l).parents c = w.parents c) := by
  refine ⟨push_children_events w p l, ?_, ?_, ?_, ?_⟩
  · apply List.Nodup.map
    · intro a b hab
      injection hab with h1 h2
    · exact hnd.filter _
  · rw [push_children_children]
    simp
  · intro c hc hcs
    rw [push_children_parents, if_pos ⟨hc, hcs⟩]
  · intro c hcs
    rw [push_children_parents, if_neg]
    rintro ⟨-, h⟩
    exact h hcs

/-- World used as witness input for claim C5: 1 already has child 2. -/
def w_c5 : World :=
  ⟨fun e => if e = 1 then some {2} else none,
   fun e => if e = 2 then some {1} else none, []⟩

/-- Witness for the amended claim C5 at a concrete world: pushing the
duplicate-free list containing 2 and 3 onto parent 1 that already has
child 2. -/
theorem C5_amended_witness :
    ([2, 3] : List ℕ).Nodup ∧
    ((push_children w_c5 1 [2, 3]).events =
      w_c5.events ++ (([2, 3] : List ℕ).filter (fun c => c ∉ childSetOf w_c5 1)).map
        (fun c => HierarchyEvent.ChildAdded c 1) ∧
    ((([2, 3] : List ℕ).filter (fun c => c ∉ childSetOf w_c5 1)).map
        (fun c => HierarchyEvent.ChildAdded c 1)).Nodup ∧
    (push_children w_c5 1 [2, 3]).children 1 =
      some (childSetOf w_c5 1 ∪ ([2, 3] : List ℕ).toFinset) ∧
    (∀ c ∈ ([2, 3] : List ℕ), c ∉ childSetOf w_c5 1 →
      (push_children w_c5 1 [2, 3]).parents c = some (insert 1 (parentSetOf w_c5 c))) ∧
    (∀ c, c ∈ childSetOf w_c5 1 → (push_children w_c5 1 [2, 3]).parents c = w_c5.parents c)) :=
  ⟨by decide, C5_amended_push_children_filters w_c5 1 [2, 3] (by decide)⟩

theorem sortedList_singleton (a : ℕ) : sortedList {a} = [a] := by
  simp [sortedList, pickSorted, Finset.min'_singleton, Finset.erase_singleton]

theorem replace_children_apply_some (w : World) (p : ℕ) (cs : List ℕ) (s : Finset ℕ)
    (h : w.children p = some s) :
    replace_children_apply w p cs =
      some (push_children (remove_children p (sortedList (s \ cs.toFinset)) w) p
        (sortedList (cs.toFinset \ s))) := by
  simp only [replace_children_apply, h]

theorem erase_parent_opt_not_mem (o : Option (Finset ℕ)) (p : ℕ) :
    p ∉ (erase_parent_opt o p).getD ∅ := by
  cases o with
  | none => simp [erase_parent_opt]
  | some s =>
      simp only [erase_parent_opt]
      by_cases h : s.erase p = ∅ <;> simp [h, Finset.not_mem_erase]

/-- Claim C6: replacing the children of a parent whose ChildSet holds c1
and c3 with the list holding c1 and c2 yields ChildSet containing
exactly c1 and c2; c1's ParentSet is untouched and the only events
pushed are a ChildRemoved for c3 and a ChildAdded for c2 (none mentions
c1); c3 loses p from its ParentSet and c2 gains it. -/
theorem C6_replace_precision (w : World) (p c1 c2 c3 : ℕ)
    (h12 : c1 ≠ c2) (h13 : c1 ≠ c3) (h23 : c2 ≠ c3)
    (hcs : w.children p = some {c1, c3}) :
    ∃ w2, replace_children_apply w p [c1, c2] = some w2 ∧
      w2.children p = some {c1, c2} ∧
      w2.parents c1 = w.parents c1 ∧
      p ∉ parentSetOf w2 c3 ∧
      p ∈ parentSetOf w2 c2 ∧
      w2.events = w.events ++
        [HierarchyEvent.ChildRemoved c3 p, HierarchyEvent.ChildAdded c2 p] := by
  have htf : ([c1, c2] : List ℕ).toFinset = ({c1, c2} : Finset ℕ) := by
    simp
  have hrd : ({c1, c3} : Finset ℕ) \ {c1, c2} = {c3} := by
    ext a
    simp only [Finset.mem_sdiff, Finset.mem_insert, Finset.mem_singleton]
    constructor
    · rintro ⟨rfl | rfl, h2⟩
      · exact absurd (Or.inl rfl) h2
      · rfl
    · rintro rfl
      refine ⟨Or.inr rfl, ?_⟩
      rintro (h | h)
      · exact h13 h.symm
      · exact h23 h.symm
  have hid : ({c1, c2} : Finset ℕ) \ {c1, c3} = {c2} := by
    ext a
    simp only [Finset.mem_sdiff, Finset.mem_insert, Finset.mem_singleton]
    constructor
    · rintro ⟨rfl | rfl, h2⟩
      · exact absurd (Or.inl rfl) h2
      · rfl
    · rintro rfl
      refine ⟨Or.inr rfl, ?_⟩
      rintro (h | h)
      · exact h12 h.symm
      · exact h23 h
  have happ := replace_children_apply_some w p [c1, c2] {c1, c3} hcs
  rw [htf, hrd, hid, sortedList_singleton, sortedList_singleton] at happ
  have hcso : childSetOf w p = {c1, c3} := by simp [childSetOf, hcs]
  have hc3mem : c3 ∈ childSetOf w p := by simp [hcso]
  -- facts about the intermediate world after detaching c3
  have h1c : (remove_children p [c3] w).children p = some {c1} := by
    rw [remove_children_children, if_pos rfl, hcs]
    have hfe : ([c3] : List ℕ).foldl Finset.erase {c1, c3} = {c1} := by
      simp only [List.foldl_cons, List.foldl_nil]
      rw [Finset.erase_insert_of_ne h13, Finset.erase_singleton]
      rfl
    simp [remove_children_opt, hfe, Finset.singleton_ne_empty]
  have h1cso : childSetOf (remove_children p [c3] w) p = {c1} := by
    simp [childSetOf, h1c]
  have h1p1 : (remove_children p [c3] w).parents c1 = w.parents c1 := by
    rw [remove_children_parents, if_neg]
    rintro ⟨h, -⟩
    simp only [List.mem_singleton] at h
    exact h13 h
  have h1p2 : (remove_children p [c3] w).parents c2 = w.parents c2 := by
    rw [remove_children_parents, if_neg]
    rintro ⟨h, -⟩
    simp only [List.mem_singleton] at h
    exact h23 h
  have h1p3 : (remove_children p [c3] w).parents c3 = erase_parent_opt (w.parents c3) p := by
    rw [remove_children_parents, if_pos ⟨List.mem_singleton_self c3, hc3mem⟩]
  have h1ev : (remove_children p [c3] w).events =
      w.events ++ [HierarchyEvent.ChildRemoved c3 p] := by
    rw [remove_children_events]
    have : ([c3] : List ℕ).filter (fun c => c ∈ childSetOf w p) = [c3] := by
      simp [hc3mem]
    rw [this]
    rfl
  refine ⟨_, happ, ?_, ?_, ?_, ?_, ?_⟩
  · rw [push_children_children, if_pos rfl, h1cso]
    have : ({c1} : Finset ℕ) ∪ ([c2] : List ℕ).toFinset = {c1, c2} := by
      ext a
      simp [or_comm]
    rw [this]
  · rw [push_children_parents, if_neg, h1p1]
    rintro ⟨h, -⟩
    simp only [List.mem_singleton] at h
    exact h12 h
  · have : (push_children (remove_children p [c3] w) p [c2]).parents c3 =
        erase_parent_opt (w.parents c3) p := by
      rw [push_children_parents, if_neg, h1p3]
      rintro ⟨h, -⟩
      simp only [List.mem_singleton] at h
      exact h23 h.symm
    rw [parentSetOf, this]
    exact erase_parent_opt_not_mem (w.parents c3) p
  · have hc2n : c2 ∉ childSetOf (remove_children p [c3] w) p := by
      simp [h1cso, h12.symm]
    rw [parentSetOf, push_children_parents, if_pos ⟨List.mem_singleton_self c2, hc2n⟩]
    simp
  · rw [push_children_events, h1ev]
    have hc2n : ([c2] : List ℕ).filter
        (fun c => c ∉ childSetOf (remove_children p [c3] w) p) = [c2] := by
      simp [h1cso, h12.symm]
    rw [hc2n, List.append_assoc]
    rfl

/-- World used as witness input for claim C6: parent 1 has children 2
and 4, each recording 1 as parent. -/
def w_c6 : World :=
  ⟨fun e => if e = 1 then some {2, 4} else none,
   fun e => if e = 2 then some {1} else if e = 4 then some {1} else none, []⟩

/-- Witness for claim C6 at a concrete world: replace children of 1,
currently 2 and 4, by the list holding 2 and 3. -/
theorem C6_replace_precision_witness :
    ((2 : ℕ) ≠ 3 ∧ (2 : ℕ) ≠ 4 ∧ (3 : ℕ) ≠ 4 ∧ w_c6.children 1 = some {2, 4}) ∧
    (∃ w2, replace_children_apply w_c6 1 [2, 3] = some w2 ∧
      w2.children 1 = some {2, 3} ∧
      w2.parents 2 = w_c6.parents 2 ∧
      1 ∉ parentSetOf w2 4 ∧
      1 ∈ parentSetOf w2 3 ∧
      w2.events = w_c6.events ++
        [HierarchyEvent.ChildRemoved 4 1, HierarchyEvent.ChildAdded 3 1]) :=
  ⟨⟨by decide, by decide, by decide, by decide⟩,
   C6_replace_precision w_c6 1 2 3 4 (by decide) (by decide) (by decide) (by decide)⟩

theorem mpu_parents (w : World) (p np c x : ℕ) :
    (move_parent_update w p np c).parents x =
      if x = c then some (insert np ((parentSetOf w c).erase p)) else w.parents x := by
  cases h : w.parents c <;>
    simp [move_parent_update, h, writeParents, parentSetOf, Finset.erase_empty]

theorem mpu_children (w : World) (p np c : ℕ) :
    (move_parent_update w p np c).children = w.children := by
  cases h : w.parents c <;> simp [move_parent_update, h, writeParents]

theorem mpu_events (w : World) (p np c : ℕ) :
    (move_parent_update w p np c).events = w.events := by
  cases h : w.parents c <;> simp [move_parent_update, h, writeParents]

theorem foldl_mpu_parents (p np : ℕ) (hpn : p ≠ np) (cs : List ℕ) :
    ∀ (w : World) (x : ℕ),
      ((cs.foldl (fun acc child => move_parent_update acc p np child) w).parents x) =
        if x ∈ cs then some (insert np ((parentSetOf w x).erase p)) else w.parents x := by
  induction cs with
  | nil => intro w x; simp
  | cons a cs ih =>
      intro w x
      rw [List.foldl_cons, ih]
      by_cases hxa : x = a
      · have hps : parentSetOf (move_parent_update w p np a) x =
            insert np ((parentSetOf w x).erase p) := by
          rw [parentSetOf, mpu_parents, if_pos hxa, Option.getD_some, hxa]
        by_cases hxcs : x ∈ cs
        · rw [if_pos hxcs, if_pos (List.mem_cons_of_mem a hxcs), hps,
            Finset.erase_insert_of_ne (fun h => hpn h.symm), Finset.erase_idem,
            Finset.insert_idem]
        · rw [if_neg hxcs, mpu_parents, if_pos hxa,
            if_pos (show x ∈ a :: cs by simp [hxa]), hxa]
      · have hps : parentSetOf (move_parent_update w p np a) x = parentSetOf w x := by
          simp [parentSetOf, mpu_parents, hxa]
        by_cases hxcs : x ∈ cs
        · rw [if_pos hxcs, if_pos (List.mem_cons_of_mem a hxcs), hps]
        · rw [if_neg hxcs, if_neg (by simp [hxa, hxcs]), mpu_parents, if_neg hxa]

theorem foldl_mpu_children (p np : ℕ) (cs : List ℕ) :
    ∀ (w : World),
      (cs.foldl (fun acc child => move_parent_update acc p np child) w).children =
        w.children := by
  induction cs with
  | nil => intro w; rfl
  | cons a cs ih => intro w; rw [List.foldl_cons, ih, mpu_children]

theorem foldl_mpu_events (p np : ℕ) (cs : List ℕ) :
    ∀ (w : World),
      (cs.foldl (fun acc child => move_parent_update acc p np child) w).events =
        w.events := by
  induction cs with
  | nil => intro w; rfl
  | cons a cs ih => intro w; rw [List.foldl_cons, ih, mpu_events]

theorem remove_children_opt_not_mem (o : Option (Finset ℕ)) (cs : List ℕ) (c : ℕ)
    (hc : c ∈ cs) : c ∉ ((remove_children_opt o cs).getD ∅) := by
  cases o with
  | none => simp [remove_children_opt]
  | some s =>
      simp only [remove_children_opt, foldl_erase_eq_filter]
      by_cases h : s.filter (fun x => x ∉ cs) = ∅ <;>
        simp [h, Finset.mem_filter, hc]

/-- Claim C7: move_child and move_children update both Children sets and
the child's Parents set (old parent out, new parent in) and push no
HierarchyEvent of any kind; stated for distinct old and new parents. -/
theorem C7_move_semantics (w : World) (p np c : ℕ) (cs : List ℕ) (hpn : p ≠ np) :
    ((move_child w p np c).events = w.events ∧
      c ∉ childSetOf (move_child w p np c) p ∧
      c ∈ childSetOf (move_child w p np c) np ∧
      p ∉ parentSetOf (move_child w p np c) c ∧
      np ∈ parentSetOf (move_child w p np c) c) ∧
    ((move_children w p np cs).events = w.events ∧
      ∀ x ∈ cs, x ∉ childSetOf (move_children w p np cs) p ∧
        x ∈ childSetOf (move_children w p np cs) np ∧
        p ∉ parentSetOf (move_children w p np cs) x ∧
        np ∈ parentSetOf (move_children w p np cs) x) := by
  have hnp : ¬ p = np := hpn
  constructor
  · refine ⟨?_, ?_, ?_, ?_, ?_⟩
    · simp only [move_child, mpu_events, icu_events, rcu_events]
    · rw [childSetOf]
      simp only [move_child, mpu_children, icu_children, if_neg hnp, rcu_children,
        if_pos rfl]
      exact remove_children_opt_not_mem (w.children p) [c] c (List.mem_singleton_self c)
    · rw [childSetOf]
      simp only [move_child, mpu_children, icu_children, if_pos rfl]
      simp [childSetOf]
    · rw [parentSetOf]
      simp only [move_child, mpu_parents, if_pos rfl, Option.getD_some]
      simp [Finset.mem_insert, hpn, Finset.not_mem_erase]
    · rw [parentSetOf]
      simp only [move_child, mpu_parents, if_pos rfl, Option.getD_some]
      exact Finset.mem_insert_self np _
  · constructor
    · simp only [move_children, foldl_mpu_events, icu_events, rcu_events]
    · intro x hx
      refine ⟨?_, ?_, ?_, ?_⟩
      · rw [childSetOf]
        simp only [move_children, foldl_mpu_children, icu_children, if_neg hnp,
          rcu_children, if_pos rfl]
        exact remove_children_opt_not_mem (w.children p) cs x hx
      · rw [childSetOf]
        simp only [move_children, foldl_mpu_children, icu_children, if_pos rfl]
        simp [childSetOf, List.mem_toFinset, hx]
      · rw [parentSetOf]
        simp only [move_children, foldl_mpu_parents p np hpn, if_pos hx, Option.getD_some]
        simp [Finset.mem_insert, hpn, Finset.not_mem_erase]
      · rw [parentSetOf]
        simp only [move_children, foldl_mpu_parents p np hpn, if_pos hx, Option.getD_some]
        exact Finset.mem_insert_self np _

/-- World used as witness input for claim C7: parent 1 has children 3
and 4, each recording 1 as parent; 2 is the new parent. -/
def w_c7 : World :=
  ⟨fun e => if e = 1 then some {3, 4} else none,
   fun e => if e = 3 then some {1} else if e = 4 then some {1} else none, []⟩

/-- Witness for claim C7 at a concrete world: move child 3, and
separately children 3 and 4, from parent 1 to parent 2. -/
theorem C7_move_semantics_witness :
    (1 : ℕ) ≠ 2 ∧
    (((move_child w_c7 1 2 3).events = w_c7.events ∧
      3 ∉ childSetOf (move_child w_c7 1 2 3) 1 ∧
      3 ∈ childSetOf (move_child w_c7 1 2 3) 2 ∧
      1 ∉ parentSetOf (move_child w_c7 1 2 3) 3 ∧
      2 ∈ parentSetOf (move_child w_c7 1 2 3) 3) ∧
    ((move_children w_c7 1 2 [3, 4]).events = w_c7.events ∧
      ∀ x ∈ ([3, 4] : List ℕ), x ∉ childSetOf (move_children w_c7 1 2 [3, 4]) 1 ∧
        x ∈ childSetOf (move_children w_c7 1 2 [3, 4]) 2 ∧
        1 ∉ parentSetOf (move_children w_c7 1 2 [3, 4]) x ∧
        2 ∈ parentSetOf (move_children w_c7 1 2 [3, 4]) x)) :=
  ⟨by decide, C7_move_semantics w_c7 1 2 3 [3, 4] (by decide)⟩

theorem descRun_empty (cq : ℕ → Option (Finset ℕ)) (fuel : ℕ) (visited : Finset ℕ) :
    descRun cq fuel visited ∅ = [] := by
  cases fuel with
  | zero => rfl
  | succ n => simp [descRun]

theorem descRun_mem_not_visited (cq : ℕ → Option (Finset ℕ)) :
    ∀ (fuel : ℕ) (visited nexts : Finset ℕ),
      (∀ y ∈ nexts, y ∉ visited) →
      ∀ x ∈ descRun cq fuel visited nexts, x ∉ visited := by
  intro fuel
  induction fuel with
  | zero =>
      intro visited nexts hinv x hx
      simp [descRun] at hx
  | succ n ih =>
      intro visited nexts hinv x hx
      by_cases hne : nexts.Nonempty
      · simp only [descRun, dif_pos hne] at hx
        rcases List.mem_cons.mp hx with rfl | hx2
        · exact hinv _ (nexts.min'_mem hne)
        · have hinv2 : ∀ y ∈ (nexts.erase (nexts.min' hne)) ∪
              ((cq (nexts.min' hne)).getD ∅).filter
                (fun z => z ∉ insert (nexts.min' hne) visited),
              y ∉ insert (nexts.min' hne) visited := by
            intro y hy
            rcases Finset.mem_union.mp hy with hy1 | hy2
            · intro hc
              rcases Finset.mem_insert.mp hc with rfl | hc2
              · exact (Finset.mem_erase.mp hy1).1 rfl
              · exact hinv y (Finset.mem_of_mem_erase hy1) hc2
            · exact (Finset.mem_filter.mp hy2).2
          have := ih (insert (nexts.min' hne) visited) _ hinv2 x hx2
          intro hc
          exact this (Finset.mem_insert_of_mem hc)
      · rw [Finset.not_nonempty_iff_eq_empty.mp hne, descRun_empty] at hx
        simp at hx

theorem descRun_nodup (cq : ℕ → Option (Finset ℕ)) :
    ∀ (fuel : ℕ) (visited nexts : Finset ℕ),
      (∀ y ∈ nexts, y ∉ visited) →
      (descRun cq fuel visited nexts).Nodup := by
  intro fuel
  induction fuel with
  | zero => intro visited nexts hinv; simp [descRun]
  | succ n ih =>
      intro visited nexts hinv
      by_cases hne : nexts.Nonempty
      · simp only [descRun, dif_pos hne]
        have hinv2 : ∀ y ∈ (nexts.erase (nexts.min' hne)) ∪
            ((cq (nexts.min' hne)).getD ∅).filter
              (fun z => z ∉ insert (nexts.min' hne) visited),
            y ∉ insert (nexts.min' hne) visited := by
          intro y hy
          rcases Finset.mem_union.mp hy with hy1 | hy2
          · intro hc
            rcases Finset.mem_insert.mp hc with rfl | hc2
            · exact (Finset.mem_erase.mp hy1).1 rfl
            · exact hinv y (Finset.mem_of_mem_erase hy1) hc2
          · exact (Finset.mem_filter.mp hy2).2
        refine List.Nodup.cons ?_ (ih _ _ hinv2)
        intro hmem
        exact descRun_mem_not_visited cq n _ _ hinv2 _ hmem (Finset.mem_insert_self _ _)
      · rw [Finset.not_nonempty_iff_eq_empty.mp hne, descRun_empty]
        exact List.nodup_nil

theorem descRun_stable (cq : ℕ → Option (Finset ℕ)) (U : Finset ℕ)
    (hcq : ∀ e, ((cq e).getD ∅) ⊆ U) :
    ∀ (b fuel1 fuel2 : ℕ) (visited nexts : Finset ℕ),
      nexts ⊆ U → (∀ y ∈ nexts, y ∉ visited) →
      (U \ visited).card ≤ b → b ≤ fuel1 → b ≤ fuel2 →
      descRun cq fuel1 visited nexts = descRun cq fuel2 visited nexts := by
  intro b
  induction b with
  | zero =>
      intro fuel1 fuel2 visited nexts hsub hdis hcard h1 h2
      have hemp : nexts = ∅ := by
        have hsub2 : nexts ⊆ U \ visited := fun y hy =>
          Finset.mem_sdiff.mpr ⟨hsub hy, hdis y hy⟩
        have hU : U \ visited = ∅ := Finset.card_eq_zero.mp (Nat.le_zero.mp hcard)
        exact Finset.subset_empty.mp (hU ▸ hsub2)
      rw [hemp, descRun_empty, descRun_empty]
  | succ b ih =>
      intro fuel1 fuel2 visited nexts hsub hdis hcard h1 h2
      by_cases hne : nexts.Nonempty
      · obtain ⟨f1, rfl⟩ : ∃ f, fuel1 = f + 1 := ⟨fuel1 - 1, by omega⟩
        obtain ⟨f2, rfl⟩ : ∃ f, fuel2 = f + 1 := ⟨fuel2 - 1, by omega⟩
        simp only [descRun, dif_pos hne]
        congr 1
        have hemem : nexts.min' hne ∈ U := hsub (nexts.min'_mem hne)
        have henv : nexts.min' hne ∉ visited := hdis _ (nexts.min'_mem hne)
        apply ih
        · intro y hy
          rcases Finset.mem_union.mp hy with hy1 | hy2
          · exact hsub (Finset.mem_of_mem_erase hy1)
          · exact hcq _ (Finset.mem_of_mem_filter y hy2)
        · intro y hy
          rcases Finset.mem_union.mp hy with hy1 | hy2
          · intro hc
            rcases Finset.mem_insert.mp hc with rfl | hc2
            · exact (Finset.mem_erase.mp hy1).1 rfl
            · exact hdis y (Finset.mem_of_mem_erase hy1) hc2
          · exact (Finset.mem_filter.mp hy2).2
        · have hUe : U \ insert (nexts.min' hne) visited =
              (U \ visited).erase (nexts.min' hne) := by
            ext y
            simp only [Finset.mem_sdiff, Finset.mem_erase, Finset.mem_insert]
            tauto
          rw [hUe, Finset.card_erase_of_mem
            (Finset.mem_sdiff.mpr ⟨hemem, henv⟩)]
          omega
        · omega
        · omega
      · rw [Finset.not_nonempty_iff_eq_empty.mp hne, descRun_empty, descRun_empty]

/-- The diamond graph of the claim: 1 → 2, 1 → 3, 2 → 4, 3 → 4, with
both relationship sides recorded. -/
def diamondWorld : World :=
  ⟨fun e => if e = 1 then some {2, 3} else if e = 2 then some {4}
      else if e = 3 then some {4} else none,
   fun e => if e = 2 then some {1} else if e = 3 then some {1}
      else if e = 4 then some {2, 3} else none, []⟩

theorem diamond_children_subset :
    ∀ e, ((diamondWorld.children e).getD ∅) ⊆ ({2, 3, 4} : Finset ℕ) := by
  intro e
  by_cases h1 : e = 1
  · subst h1; decide
  by_cases h2 : e = 2
  · subst h2; decide
  by_cases h3 : e = 3
  · subst h3; decide
  simp [diamondWorld, h1, h2, h3]

/-- Claim C8: on the diamond 1 → 2, 1 → 3, 2 → 4, 3 → 4, the descendant
iterator of 1 terminates — from fuel 3 on, its output is exactly the
list of 2, 3, 4, so each of the three descendants is yielded exactly
once and the root is not yielded — and in general the visited-set guard
makes the yielded sequence duplicate-free from any state whose frontier
avoids the visited set. -/
theorem C8_descendant_traversal :
    (∀ fuel, 3 ≤ fuel → iter_descendants diamondWorld 1 fuel = [2, 3, 4]) ∧
    (∀ (cq : ℕ → Option (Finset ℕ)) (fuel : ℕ) (visited nexts : Finset ℕ),
      (∀ y ∈ nexts, y ∉ visited) → (descRun cq fuel visited nexts).Nodup) := by
  constructor
  · intro fuel hf
    have hsub : ((diamondWorld.children 1).getD ∅) ⊆ ({2, 3, 4} : Finset ℕ) := by
      decide
    have hdis : ∀ y ∈ ((diamondWorld.children 1).getD ∅), y ∉ (∅ : Finset ℕ) := by
      decide
    have hcard : (({2, 3, 4} : Finset ℕ) \ ∅).card ≤ 3 := by decide
    have hstab := descRun_stable diamondWorld.children {2, 3, 4} diamond_children_subset
      3 fuel 3 ∅ ((diamondWorld.children 1).getD ∅) hsub hdis hcard hf (le_refl 3)
    rw [iter_descendants, hstab]
    decide
  · exact fun cq fuel visited nexts h => descRun_nodup cq fuel visited nexts h

/-- Witness for claim C8: the diamond traversal at fuel 5 and the
duplicate-freedom of a run from a concrete state. -/
theorem C8_descendant_traversal_witness :
    (3 : ℕ) ≤ 5 ∧ iter_descendants diamondWorld 1 5 = [2, 3, 4] ∧
    (∀ y ∈ ({7} : Finset ℕ), y ∉ (∅ : Finset ℕ)) ∧
    (descRun (fun _ => none) 2 ∅ {7}).Nodup :=
  ⟨by decide, C8_descendant_traversal.1 5 (by decide), by decide,
   C8_descendant_traversal.2 (fun _ => none) 2 ∅ {7} (by decide)⟩

/-- Claim C9: the Children/Parents state left by remove_children depends
only on the membership of the input list — any two inputs with the same
members (in particular any two permutations of each other) produce
identical Children and Parents maps — while the event log always gains
the ChildRemoved notifications in input order restricted to the children
present in the parent's ChildSet at call time. -/
theorem C9_remove_children_order_insensitive (w : World) (p : ℕ) (l1 l2 : List ℕ)
    (hmem : ∀ x, x ∈ l1 ↔ x ∈ l2) :
    (remove_children p l1 w).children = (remove_children p l2 w).children ∧
    (remove_children p l1 w).parents = (remove_children p l2 w).parents ∧
    ∀ l : List ℕ, (remove_children p l w).events =
      w.events ++ (l.filter (fun c => c ∈ childSetOf w p)).map
        (fun c => HierarchyEvent.ChildRemoved c p) := by
  refine ⟨?_, ?_, fun l => remove_children_events p l w⟩
  · funext x
    rw [remove_children_children, remove_children_children]
    by_cases hx : x = p
    · rw [if_pos hx, if_pos hx]
      cases hw : w.children p with
      | none => rfl
      | some s =>
          have hfe : l1.foldl Finset.erase s = l2.foldl Finset.erase s := by
            rw [foldl_erase_eq_filter, foldl_erase_eq_filter]
            ext y
            simp [Finset.mem_filter, hmem y]
          simp only [remove_children_opt, hfe]
    · rw [if_neg hx, if_neg hx]
  · funext x
    rw [remove_children_parents, remove_children_parents]
    by_cases hx : x ∈ l1 ∧ x ∈ childSetOf w p
    · rw [if_pos hx, if_pos ⟨(hmem x).mp hx.1, hx.2⟩]
    · rw [if_neg hx, if_neg (fun hc => hx ⟨(hmem x).mpr hc.1, hc.2⟩)]

/-- World used as witness input for claim C9: parent 1 has children 2
and 3, each recording 1 as parent. -/
def w_c9 : World :=
  ⟨fun e => if e = 1 then some {2, 3} else none,
   fun e => if e = 2 then some {1} else if e = 3 then some {1} else none, []⟩

/-- Witness for claim C9 at a concrete world: the two-element input in
both orders. -/
theorem C9_remove_children_order_witness :
    (∀ x : ℕ, x ∈ ([2, 3] : List ℕ) ↔ x ∈ ([3, 2] : List ℕ)) ∧
    ((remove_children 1 [2, 3] w_c9).children =
        (remove_children 1 [3, 2] w_c9).children ∧
      (remove_children 1 [2, 3] w_c9).parents =
        (remove_children 1 [3, 2] w_c9).parents ∧
      ∀ l : List ℕ, (remove_children 1 l w_c9).events =
        w_c9.events ++ (l.filter (fun c => c ∈ childSetOf w_c9 1)).map
          (fun c => HierarchyEvent.ChildRemoved c 1)) :=
  ⟨fun x => by simp only [List.mem_cons, List.not_mem_nil, or_false]; tauto,
   C9_remove_children_order_insensitive w_c9 1 [2, 3] [3, 2]
     (fun x => by simp only [List.mem_cons, List.not_mem_nil, or_false]; tauto)⟩

/-- Claim C10: applying ReplaceChildren to a parent with no Children
component aborts (the unwrap of the absent component, modelled as
`none`) for every replacement list, while ClearChildren treats the
absent component as the empty sequence and completes as a no-op. -/
theorem C10_replace_panics_on_absent_children (w : World) (p : ℕ) (l : List ℕ)
    (h : w.children p = none) :
    replace_children_apply w p l = none ∧ clear_children_apply w p = w := by
  constructor
  · simp only [replace_children_apply, h]
  · simp only [clear_children_apply, h, Option.getD_none, remove_children]

/-- Witness for claim C10 at a concrete world with no components. -/
theorem C10_replace_panics_witness :
    w_empty.children 1 = none ∧
    (replace_children_apply w_empty 1 [2] = none ∧
      clear_children_apply w_empty 1 = w_empty) :=
  ⟨by decide, C10_replace_panics_on_absent_children w_empty 1 [2] (by decide)⟩
